import Mathlib

/-!
Verification of the trace record splicing toolkit.

The repository edits binary instruction-trace files made of fixed-size
records (struct input_instr, 64 bytes: ip at offset 0, is_branch at 8,
branch_taken at 9, destination_registers at 10, source_registers at 12,
destination_memory at 16, source_memory at 32; the field sizes sum to 64
with no padding).  The splicing tools treat records as opaque 64-byte
blobs, so the splicer embeddings below work over lists of chunks
(a chunk is the byte list of one record); the scanner and inspector
decode the memory-address fields, so their embeddings work over a
decoded record structure.

Each definition carries a comment naming the C source it embeds.
-/

/-- One trace record as an opaque byte blob (the splicers never decode
record contents; they fread and fwrite sizeof(input_instr) byte units). -/
abbrev Chunk := List Nat

/-- sizeof(struct input_instr): 8 (ip) + 1 + 1 + 2 + 4 (flags and register
ids) + 16 (destination_memory) + 32 (source_memory) = 64 bytes, with the
two uint64_t arrays already 8-aligned at offsets 16 and 32, so no padding. -/
def recordSize : Nat := 64

/-- Fuel-driven worker for splitting a byte stream into complete 64-byte
records: models the repeated fread(&rec, sizeof(rec), 1, fp) pattern of
every tool, which succeeds exactly while at least one whole record
remains and silently stops at a trailing partial record. -/
def chunksGo : Nat → List Nat → List Chunk
  | 0, _ => []
  | fuel + 1, bs => if recordSize ≤ bs.length then bs.take recordSize :: chunksGo fuel (bs.drop recordSize) else []

/-- The sequence of complete records contained in a byte file. -/
def bytesToChunks (bs : List Nat) : List Chunk := chunksGo bs.length bs

/-- fseek to begin * recordSize followed by fread of (e - b) records:
yields the records with indices in the half-open range. -/
def readRange (t : List Chunk) (b e : Nat) : List Chunk := (t.drop b).take (e - b)

/-! ## Single-range insert (trace_insert_range.c, lines 240 to 273)

The streaming loop: read records one at a time; the first time the
running input index equals insert_at (and nothing was inserted yet),
write the buffered source range, then the current record.  The loop
returns the written records together with the final value of the
inserted flag. -/

/-- The while loop of trace_insert_range.c main (lines 246 to 273),
with state (in_idx, inserted). -/
def insertLoop (src : List Chunk) (insert_at : Nat) : List Chunk → Nat → Bool → List Chunk × Bool
  | [], _, inserted => ([], inserted)
  | r :: rest, in_idx, inserted =>
      if inserted = false ∧ in_idx = insert_at then
        let p := insertLoop src insert_at rest (in_idx + 1) true
        (src ++ r :: p.1, p.2)
      else
        let p := insertLoop src insert_at rest (in_idx + 1) inserted
        (r :: p.1, p.2)

/-- trace_insert_range.c streaming phase (lines 240 to 287): load the
source range, stream the input with insertLoop, and append the buffered
range at end of file when insert_at equals the total record count and
the loop never fired. -/
def insertRun (input : List Chunk) (src_begin src_end insert_at : Nat) : List Chunk :=
  let src := readRange input src_begin src_end
  let p := insertLoop src insert_at input 0 false
  if p.2 = false ∧ insert_at = input.length then p.1 ++ src else p.1

/-! Helper lemmas for insertLoop. -/

theorem insertLoop_inserted (src : List Chunk) (insert_at : Nat) :
    ∀ (rem : List Chunk) (in_idx : Nat),
      insertLoop src insert_at rem in_idx true = (rem, true) := by
  intro rem
  induction rem with
  | nil => intro in_idx; rfl
  | cons r rest ih =>
      intro in_idx
      simp [insertLoop, ih]

theorem insertLoop_spec (src : List Chunk) (insert_at : Nat) :
    ∀ (rem : List Chunk) (in_idx : Nat), in_idx ≤ insert_at →
      insertLoop src insert_at rem in_idx false =
        (if insert_at - in_idx < rem.length then
          (rem.take (insert_at - in_idx) ++ src ++ rem.drop (insert_at - in_idx), true)
        else (rem, false)) := by
  intro rem
  induction rem with
  | nil =>
      intro in_idx _
      simp [insertLoop]
  | cons r rest ih =>
      intro in_idx hle
      by_cases h : in_idx = insert_at
      · subst h
        simp [insertLoop, insertLoop_inserted]
      · have hlt : in_idx < insert_at := lt_of_le_of_ne hle h
        have hstep : in_idx + 1 ≤ insert_at := hlt
        have hrw : insertLoop src insert_at (r :: rest) in_idx false =
            (r :: (insertLoop src insert_at rest (in_idx + 1) false).1,
             (insertLoop src insert_at rest (in_idx + 1) false).2) := by
          simp [insertLoop, h]
        rw [hrw, ih (in_idx + 1) hstep]
        by_cases hcase : insert_at - (in_idx + 1) < rest.length
        · have hcase2 : insert_at - in_idx < (r :: rest).length := by
            simp only [List.length_cons]; omega
          rw [if_pos hcase, if_pos hcase2]
          have hsub : insert_at - in_idx = (insert_at - (in_idx + 1)) + 1 := by omega
          rw [hsub]
          simp [List.take_succ_cons, List.drop_succ_cons]
        · have hcase2 : ¬ insert_at - in_idx < (r :: rest).length := by
            simp only [List.length_cons]; omega
          rw [if_neg hcase, if_neg hcase2]

/-- C1: Insert correctness.  For every input trace and valid
configuration (0 < src_begin < src_end ≤ total record count,
insert_at ≤ total record count), the insert streaming phase outputs the
input records before insert_at, then the source range byte for byte,
then the remaining input records unmodified and in order; the output has
exactly total + (src_end - src_begin) records, and insert_at equal to
the total record count appends the block at end of file. -/
theorem C1_insert_correct (input : List Chunk) (src_begin src_end insert_at : Nat)
    (h1 : 0 < src_begin) (h2 : src_begin < src_end) (h3 : src_end ≤ input.length)
    (h4 : insert_at ≤ input.length) :
    insertRun input src_begin src_end insert_at =
      input.take insert_at ++ (input.drop src_begin).take (src_end - src_begin)
        ++ input.drop insert_at ∧
    (insertRun input src_begin src_end insert_at).length =
      input.length + (src_end - src_begin) := by
  have hsrclen : ((input.drop src_begin).take (src_end - src_begin)).length = src_end - src_begin := by
    simp only [List.length_take, List.length_drop]
    omega
  have hmain : insertRun input src_begin src_end insert_at =
      input.take insert_at ++ (input.drop src_begin).take (src_end - src_begin)
        ++ input.drop insert_at := by
    simp only [insertRun, readRange]
    rw [insertLoop_spec _ _ input 0 (Nat.zero_le _)]
    by_cases hf : insert_at < input.length
    · have hcond : insert_at - 0 < input.length := by omega
      rw [if_pos hcond]
      have hfalse : ¬ ((true : Bool) = false ∧ insert_at = input.length) := by
        intro hc; omega
      rw [if_neg hfalse]
      simp [List.append_assoc]
    · have heq : insert_at = input.length := by omega
      subst heq
      have hcond : ¬ (input.length - 0 < input.length) := by omega
      rw [if_neg hcond]
      have htrue : (false : Bool) = false ∧ input.length = input.length := by exact ⟨rfl, rfl⟩
      rw [if_pos htrue]
      simp [List.take_of_length_le (le_refl _), List.drop_of_length_le (le_refl _)]
  refine ⟨hmain, ?_⟩
  rw [hmain]
  simp only [List.length_append, List.length_take, List.length_drop, hsrclen]
  omega

/-- Witness for C1 at a concrete input: an 8-record trace with range
[2, 5) inserted at 0 gives records 2, 3, 4 followed by all 8 originals
(the concrete scenario of the spec). -/
theorem C1_insert_correct_witness :
    insertRun [[0],[1],[2],[3],[4],[5],[6],[7]] 2 5 0 =
      [[2],[3],[4],[0],[1],[2],[3],[4],[5],[6],[7]] ∧
    (insertRun [[0],[1],[2],[3],[4],[5],[6],[7]] 2 5 0).length = 8 + 3 := by
  have h := C1_insert_correct [[0],[1],[2],[3],[4],[5],[6],[7]] 2 5 0
    (by decide) (by decide) (by decide) (by decide)
  exact ⟨by rw [h.1]; rfl, by rw [h.2]; decide⟩

/-! ## Single-range overwrite (trace_overwrite_range.c, lines 229 to 258)

The streaming loop: for input index idx inside the destination window
[dst_begin, dst_begin + copy_len), write the next buffered source record
(src_records[src_idx]); elsewhere copy the original record. -/

/-- The while loop of trace_overwrite_range.c main (lines 234 to 258),
with state (idx, src_idx). -/
def overwriteLoop (srcbuf : List Chunk) (dst_begin copy_len : Nat) :
    List Chunk → Nat → Nat → List Chunk
  | [], _, _ => []
  | r :: rest, idx, src_idx =>
      if dst_begin ≤ idx ∧ idx < dst_begin + copy_len then
        srcbuf.getD src_idx [] :: overwriteLoop srcbuf dst_begin copy_len rest (idx + 1) (src_idx + 1)
      else
        r :: overwriteLoop srcbuf dst_begin copy_len rest (idx + 1) src_idx

/-- trace_overwrite_range.c streaming phase: load [src_begin, src_end)
into memory, then stream the whole input through overwriteLoop. -/
def overwriteRun (input : List Chunk) (src_begin src_end dst_begin : Nat) : List Chunk :=
  overwriteLoop (readRange input src_begin src_end) dst_begin (src_end - src_begin) input 0 0

/-- After the destination window has been passed, the loop copies the
rest of the input unchanged. -/
theorem overwriteLoop_after (srcbuf : List Chunk) (dst_begin copy_len : Nat) :
    ∀ (rem : List Chunk) (idx src_idx : Nat), dst_begin + copy_len ≤ idx →
      overwriteLoop srcbuf dst_begin copy_len rem idx src_idx = rem := by
  intro rem
  induction rem with
  | nil => intro idx src_idx _; rfl
  | cons r rest ih =>
      intro idx src_idx hge
      have hno : ¬ (dst_begin ≤ idx ∧ idx < dst_begin + copy_len) := by omega
      simp only [overwriteLoop, if_neg hno]
      rw [ih (idx + 1) src_idx (by omega)]

/-- Inside the destination window the loop emits the remaining source
buffer, then copies the input past the window. -/
theorem overwriteLoop_inside (srcbuf : List Chunk) (dst_begin copy_len : Nat)
    (hbuf : srcbuf.length = copy_len) :
    ∀ (rem : List Chunk) (src_idx : Nat), src_idx ≤ copy_len →
      copy_len ≤ src_idx + rem.length →
      overwriteLoop srcbuf dst_begin copy_len rem (dst_begin + src_idx) src_idx =
        srcbuf.drop src_idx ++ rem.drop (copy_len - src_idx) := by
  intro rem
  induction rem with
  | nil =>
      intro src_idx hle hge
      have : src_idx = copy_len := by simp at hge; omega
      subst this
      simp [overwriteLoop, List.drop_of_length_le, hbuf]
  | cons r rest ih =>
      intro src_idx hle hge
      by_cases hlt : src_idx < copy_len
      · have hin : dst_begin ≤ dst_begin + src_idx ∧
            dst_begin + src_idx < dst_begin + copy_len := by omega
        simp only [overwriteLoop, if_pos hin]
        have harg : dst_begin + src_idx + 1 = dst_begin + (src_idx + 1) := by omega
        rw [harg, ih (src_idx + 1) (by omega) (by simp at hge ⊢; omega)]
        have hdropbuf : srcbuf.drop src_idx =
            srcbuf.getD src_idx [] :: srcbuf.drop (src_idx + 1) := by
          have hsi : src_idx < srcbuf.length := by omega
          rw [List.getD_eq_getElem srcbuf [] hsi]
          exact List.drop_eq_getElem_cons hsi
        rw [hdropbuf]
        have hsub : copy_len - src_idx = (copy_len - (src_idx + 1)) + 1 := by omega
        rw [hsub]
        simp [List.drop_succ_cons]
      · have hsi : src_idx = copy_len := by omega
        have hno : ¬ (dst_begin ≤ dst_begin + src_idx ∧
            dst_begin + src_idx < dst_begin + copy_len) := by omega
        simp only [overwriteLoop, if_neg hno]
        rw [overwriteLoop_after srcbuf dst_begin copy_len rest (dst_begin + src_idx + 1)
          src_idx (by omega)]
        have hd1 : srcbuf.drop src_idx = [] := List.drop_of_length_le (by omega)
        have hd2 : copy_len - src_idx = 0 := by omega
        rw [hd1, hd2]
        simp

/-- Before the destination window the loop copies the input, then
switches to the in-window behavior at dst_begin. -/
theorem overwriteLoop_spec (srcbuf : List Chunk) (dst_begin copy_len : Nat)
    (hbuf : srcbuf.length = copy_len) :
    ∀ (rem : List Chunk) (idx : Nat), idx ≤ dst_begin →
      dst_begin + copy_len ≤ idx + rem.length →
      overwriteLoop srcbuf dst_begin copy_len rem idx 0 =
        rem.take (dst_begin - idx) ++ srcbuf ++ rem.drop (dst_begin - idx + copy_len) := by
  intro rem
  induction rem with
  | nil =>
      intro idx hle hge
      have h1 : copy_len = 0 := by simp at hge; omega
      have h2 : dst_begin = idx := by simp at hge; omega
      subst h2
      simp at hge
      simp [overwriteLoop, List.eq_nil_of_length_eq_zero (hbuf.trans h1)]
  | cons r rest ih =>
      intro idx hle hge
      by_cases heq : idx = dst_begin
      · subst heq
        have h0 : idx + 0 = idx := by omega
        have := overwriteLoop_inside srcbuf idx copy_len hbuf (r :: rest) 0 (by omega)
          (by simpa using hge)
        rw [h0] at this
        rw [this]
        simp
      · have hlt : idx < dst_begin := lt_of_le_of_ne hle heq
        have hno : ¬ (dst_begin ≤ idx ∧ idx < dst_begin + copy_len) := by omega
        simp only [overwriteLoop, if_neg hno]
        rw [ih (idx + 1) (by omega) (by simp at hge ⊢; omega)]
        have hsub : dst_begin - idx = (dst_begin - (idx + 1)) + 1 := by omega
        rw [hsub, List.take_succ_cons]
        have hds : dst_begin - (idx + 1) + 1 + copy_len = (dst_begin - (idx + 1) + copy_len) + 1 := by
          omega
        rw [hds, List.drop_succ_cons]
        simp

/-- C2: Overwrite correctness.  For every input trace and valid
configuration, the overwrite streaming phase outputs exactly the input
record count, with the destination window replaced by the source range
and every record outside the window byte-identical to the input at the
same index; the record at dst_begin + k equals the input record at
src_begin + k. -/
theorem C2_overwrite_correct (input : List Chunk) (src_begin src_end dst_begin : Nat)
    (h1 : 0 < src_begin) (h2 : src_begin < src_end) (h3 : src_end ≤ input.length)
    (h4 : dst_begin + (src_end - src_begin) ≤ input.length) :
    overwriteRun input src_begin src_end dst_begin =
      input.take dst_begin ++ (input.drop src_begin).take (src_end - src_begin)
        ++ input.drop (dst_begin + (src_end - src_begin)) ∧
    (overwriteRun input src_begin src_end dst_begin).length = input.length ∧
    (∀ k, k < src_end - src_begin →
      (overwriteRun input src_begin src_end dst_begin).getD (dst_begin + k) [] =
        input.getD (src_begin + k) []) ∧
    (∀ i, i < input.length → (i < dst_begin ∨ dst_begin + (src_end - src_begin) ≤ i) →
      (overwriteRun input src_begin src_end dst_begin).getD i [] = input.getD i []) := by
  have hbuf : (readRange input src_begin src_end).length = src_end - src_begin := by
    simp only [readRange, List.length_take, List.length_drop]
    omega
  have hmain : overwriteRun input src_begin src_end dst_begin =
      input.take dst_begin ++ (input.drop src_begin).take (src_end - src_begin)
        ++ input.drop (dst_begin + (src_end - src_begin)) := by
    unfold overwriteRun
    rw [overwriteLoop_spec _ _ _ hbuf input 0 (Nat.zero_le _) (by omega)]
    simp [readRange]
  have htakelen : (input.take dst_begin).length = dst_begin := by
    simp only [List.length_take]
    omega
  have hlen : (overwriteRun input src_begin src_end dst_begin).length = input.length := by
    rw [hmain]
    simp only [List.length_append, List.length_take, List.length_drop]
    omega
  have hblock : ((input.drop src_begin).take (src_end - src_begin)).length =
      src_end - src_begin := by
    simp only [List.length_take, List.length_drop]; omega
  refine ⟨hmain, hlen, ?_, ?_⟩
  · intro k hk
    rw [hmain, List.append_assoc]
    rw [List.getD_append_right _ _ _ _ (by omega : (input.take dst_begin).length ≤ dst_begin + k)]
    rw [htakelen]
    have hk2 : dst_begin + k - dst_begin = k := by omega
    rw [hk2]
    rw [List.getD_append _ _ _ _ (by rw [hblock]; exact hk)]
    have hk3 : k < (input.drop src_begin).length := by
      simp only [List.length_drop]; omega
    rw [List.getD_eq_getElem _ _ (by rw [hblock]; exact hk),
      List.getD_eq_getElem _ _ (by omega : src_begin + k < input.length)]
    rw [List.getElem_take]
    exact (List.getElem_drop' input (by omega)).symm
  · intro i hi hcase
    rw [hmain, List.append_assoc]
    rcases hcase with hlo | hhi
    · rw [List.getD_append _ _ _ _ (by rw [htakelen]; exact hlo)]
      rw [List.getD_eq_getElem _ _ (by rw [htakelen]; exact hlo),
        List.getD_eq_getElem _ _ hi]
      simp [List.getElem_take]
    · rw [List.getD_append_right _ _ _ _ (by rw [htakelen]; omega)]
      rw [htakelen]
      rw [List.getD_append_right _ _ _ _ (by rw [hblock]; omega)]
      rw [hblock]
      have hi2 : i - dst_begin - (src_end - src_begin) <
          (input.drop (dst_begin + (src_end - src_begin))).length := by
        simp only [List.length_drop]; omega
      have ha : i = (dst_begin + (src_end - src_begin)) +
          (i - dst_begin - (src_end - src_begin)) := by omega
      rw [List.getD_eq_getElem _ _ hi2]
      conv_rhs => rw [ha]
      rw [List.getD_eq_getElem _ _ (by omega)]
      exact (List.getElem_drop' input (by omega)).symm

/-- Witness for C2: overwriting records [5, 7) of a 8-record trace onto
destination 1 replaces exactly records 1 and 2. -/
theorem C2_overwrite_correct_witness :
    overwriteRun [[0],[1],[2],[3],[4],[5],[6],[7]] 5 7 1 =
      [[0],[5],[6],[3],[4],[5],[6],[7]] ∧
    (overwriteRun [[0],[1],[2],[3],[4],[5],[6],[7]] 5 7 1).length = 8 := by
  have h := C2_overwrite_correct [[0],[1],[2],[3],[4],[5],[6],[7]] 5 7 1
    (by decide) (by decide) (by decide) (by decide)
  exact ⟨by rw [h.1]; rfl, by rw [h.2.1]; rfl⟩

/-- C7: Self-overwrite idempotence.  Overwriting a valid range
[src_begin, src_end) onto dst_begin equal to src_begin reproduces the
input byte for byte. -/
theorem C7_overwrite_self_identity (input : List Chunk) (src_begin src_end : Nat)
    (h2 : src_begin < src_end) (h3 : src_end ≤ input.length) :
    overwriteRun input src_begin src_end src_begin = input := by
  unfold overwriteRun
  have hbuf : (readRange input src_begin src_end).length = src_end - src_begin := by
    simp only [readRange, List.length_take, List.length_drop]
    omega
  rw [overwriteLoop_spec _ _ _ hbuf input 0 (Nat.zero_le _) (by omega)]
  simp only [Nat.sub_zero, readRange]
  have hdd : src_begin + (src_end - src_begin) = src_end := by omega
  rw [hdd]
  have hsplit : List.take (src_end - src_begin) (List.drop src_begin input) ++
      List.drop src_end input = List.drop src_begin input := by
    have : List.drop (src_end - src_begin) (List.drop src_begin input) =
        List.drop src_end input := by
      rw [List.drop_drop]
      congr 1
      try omega
    rw [← this, List.take_append_drop]
  rw [List.append_assoc, hsplit, List.take_append_drop]

/-- Witness for C7 at a concrete input. -/
theorem C7_overwrite_self_identity_witness :
    overwriteRun [[9],[8],[7],[6]] 1 3 1 = [[9],[8],[7],[6]] :=
  C7_overwrite_self_identity [[9],[8],[7],[6]] 1 3 (by decide) (by decide)

/-! ## Address scanner (find_b_accesses.c)

The scanner decodes each record (struct input_instr) and tests the
memory-address slots against the window [b_base, b_base + b_size),
so its embedding works over the decoded record structure. -/

/-- struct input_instr as read into memory by fread.  Addresses are
uint64_t values; a zero address is the no-operand sentinel. -/
structure TraceRecord where
  ip : Nat
  is_branch : Nat
  branch_taken : Nat
  destination_registers : List Nat
  source_registers : List Nat
  destination_memory : List Nat
  source_memory : List Nat
deriving DecidableEq

/-- Kind column of a scanner hit: load for source_memory slots, store
for destination_memory slots. -/
inductive HitKind
  | load
  | store
deriving DecidableEq

/-- One CSV line of find_b_accesses.c output: idx,kind,ip,addr,offset. -/
structure Hit where
  idx : Nat
  kind : HitKind
  ip : Nat
  addr : Nat
  offset : Nat
deriving DecidableEq

/-- The per-slot membership test of find_b_accesses.c (lines 127 and
144): addr != 0 && addr >= b_base && addr < b_base + b_size, where
b_base + b_size is computed in uint64_t arithmetic, i.e. modulo 2^64. -/
def hitTest (b_base b_size addr : Nat) : Bool :=
  decide (addr ≠ 0) && decide (b_base ≤ addr) && decide (addr < (b_base + b_size) % 2 ^ 64)

/-- A hit record as printed by find_b_accesses.c: offset = addr - b_base. -/
def mkHit (idx : Nat) (k : HitKind) (ip addr b_base : Nat) : Hit :=
  ⟨idx, k, ip, addr, addr - b_base⟩

/-- The slots of one record in the order the scanner visits them:
the four source_memory entries (kind load) then the two
destination_memory entries (kind store). -/
def recordSlots (r : TraceRecord) : List (HitKind × Nat) :=
  r.source_memory.map (fun a => (HitKind.load, a)) ++
    r.destination_memory.map (fun a => (HitKind.store, a))

/-- The two slot loops of find_b_accesses.c main (lines 125 to 156) for
one record, with the running hit_count; the Bool result is true when
the max_hits cutoff fired (goto done). -/
def scanSlots (b_base b_size max_hits idx ip : Nat) :
    List (HitKind × Nat) → Nat → List Hit × Nat × Bool
  | [], cnt => ([], cnt, false)
  | (k, addr) :: rest, cnt =>
      if hitTest b_base b_size addr then
        if 0 < max_hits ∧ max_hits ≤ cnt + 1 then
          ([mkHit idx k ip addr b_base], cnt + 1, true)
        else
          let p := scanSlots b_base b_size max_hits idx ip rest (cnt + 1)
          (mkHit idx k ip addr b_base :: p.1, p.2)
      else scanSlots b_base b_size max_hits idx ip rest cnt

/-- The record loop of find_b_accesses.c main (lines 121 to 159), with
state (idx, hit_count); stops the whole scan when the cutoff fired. -/
def scanRecords (b_base b_size max_hits : Nat) :
    List TraceRecord → Nat → Nat → List Hit
  | [], _, _ => []
  | r :: rest, idx, cnt =>
      let p := scanSlots b_base b_size max_hits idx r.ip (recordSlots r) cnt
      if p.2.2 then p.1
      else p.1 ++ scanRecords b_base b_size max_hits rest (idx + 1) p.2.1

/-- The full scan of find_b_accesses.c: all records from index 0, hit
count starting at 0 (max_hits = 0 means unlimited). -/
def scan (b_base b_size max_hits : Nat) (trace : List TraceRecord) : List Hit :=
  scanRecords b_base b_size max_hits trace 0 0

/-- With max_hits = 0 the cutoff never fires and one record contributes
exactly its filtered slots in visiting order. -/
theorem scanSlots_unlimited (b_base b_size idx ip : Nat) :
    ∀ (slots : List (HitKind × Nat)) (cnt : Nat),
      scanSlots b_base b_size 0 idx ip slots cnt =
        ((slots.filter (fun s => hitTest b_base b_size s.2)).map
          (fun s => mkHit idx s.1 ip s.2 b_base),
         cnt + (slots.filter (fun s => hitTest b_base b_size s.2)).length, false) := by
  intro slots
  induction slots with
  | nil => intro cnt; simp [scanSlots]
  | cons s rest ih =>
      intro cnt
      obtain ⟨k, addr⟩ := s
      by_cases h : hitTest b_base b_size addr
      · have hno : ¬ (0 < 0 ∧ 0 ≤ cnt + 1) := by omega
        simp only [scanSlots, if_pos h, if_neg hno, ih (cnt + 1)]
        simp [List.filter_cons, h]
        omega
      · simp only [scanSlots, if_neg h, ih cnt]
        simp [List.filter_cons, h]

/-- With max_hits = 0 the scan from any starting index is the
concatenation of the per-record filtered slot lists. -/
theorem scanRecords_unlimited (b_base b_size : Nat) :
    ∀ (trace : List TraceRecord) (idx cnt : Nat),
      scanRecords b_base b_size 0 trace idx cnt =
        ((trace.enumFrom idx).map (fun p =>
          (((recordSlots p.2).filter (fun s => hitTest b_base b_size s.2)).map
            (fun s => mkHit p.1 s.1 p.2.ip s.2 b_base)))).flatten := by
  intro trace
  induction trace with
  | nil => intro idx cnt; simp [scanRecords]
  | cons r rest ih =>
      intro idx cnt
      simp only [scanRecords, scanSlots_unlimited]
      rw [if_neg (by simp)]
      rw [ih (idx + 1)]
      simp [List.enumFrom_cons]

/-- Filtering and hit-building over the slot list of one kind reduces to
filtering the raw address list. -/
theorem slotFilterMap (b_base b_size : Nat) (k : HitKind) (idx ip : Nat) :
    ∀ l : List Nat,
      ((l.map (fun a => (k, a))).filter (fun s => hitTest b_base b_size s.2)).map
        (fun s => mkHit idx s.1 ip s.2 b_base) =
      (l.filter (fun a => hitTest b_base b_size a)).map
        (fun a => mkHit idx k ip a b_base) := by
  intro l
  induction l with
  | nil => rfl
  | cons a rest ih =>
      by_cases h : hitTest b_base b_size a
      · simp only [List.map_cons, List.filter_cons]
        simp [h, ih]
      · simp only [List.map_cons, List.filter_cons]
        simp [h, ih]

/-- C5: Scanner hit semantics.  For every trace and window with
b_base + b_size < 2^64 (the sum not overflowing uint64_t), the scan
with no hit limit emits exactly one Hit per non-zero memory-address
slot whose value lies in [b_base, b_base + b_size): kind load for
source_memory slots and store for destination_memory slots, offset
equal to addr - b_base, hits in record order and source slots before
destination slots within one record; a zero slot is never reported,
also when b_base = 0. -/
theorem C5_scan_hit_semantics (b_base b_size : Nat) (trace : List TraceRecord)
    (hnw : b_base + b_size < 2 ^ 64) :
    scan b_base b_size 0 trace =
      (trace.enum.map (fun p =>
        ((p.2.source_memory.filter (fun a =>
            decide (a ≠ 0) && decide (b_base ≤ a) && decide (a < b_base + b_size))).map
          (fun a => Hit.mk p.1 HitKind.load p.2.ip a (a - b_base))) ++
        ((p.2.destination_memory.filter (fun a =>
            decide (a ≠ 0) && decide (b_base ≤ a) && decide (a < b_base + b_size))).map
          (fun a => Hit.mk p.1 HitKind.store p.2.ip a (a - b_base))))).flatten := by
  have hmod : (b_base + b_size) % 2 ^ 64 = b_base + b_size := Nat.mod_eq_of_lt hnw
  have htest : ∀ a, hitTest b_base b_size a =
      (decide (a ≠ 0) && decide (b_base ≤ a) && decide (a < b_base + b_size)) := by
    intro a
    unfold hitTest
    rw [hmod]
  unfold scan
  rw [scanRecords_unlimited]
  rw [List.enum]
  congr 1
  apply List.map_congr_left
  intro p _
  rw [recordSlots, List.filter_append, List.map_append]
  congr 1
  · rw [slotFilterMap b_base b_size HitKind.load p.1 p.2.ip p.2.source_memory]
    rw [List.filter_congr (fun a _ => htest a)]
    rfl
  · rw [slotFilterMap b_base b_size HitKind.store p.1 p.2.ip p.2.destination_memory]
    rw [List.filter_congr (fun a _ => htest a)]
    rfl

/-- Witness for C5: the spec scenario, one record whose source_memory[0]
is base + 7 inside [base, base + 64), yields exactly one load Hit with
offset 7; zero slots report nothing. -/
theorem C5_scan_hit_semantics_witness :
    scan 4096 64 0 [⟨77, 0, 0, [0, 0], [0, 0, 0, 0], [0, 0], [4103, 0, 0, 0]⟩] =
      [⟨0, HitKind.load, 77, 4103, 7⟩] := by
  have h := C5_scan_hit_semantics 4096 64
    [⟨77, 0, 0, [0, 0], [0, 0, 0, 0], [0, 0], [4103, 0, 0, 0]⟩] (by decide)
  rw [h]
  rfl

/-- C10: Scanner window wraparound.  The membership test computes the
upper bound b_base + b_size modulo 2^64, so for every configuration
with b_base + b_size at least 2^64 and any uint64 address addr at or
above b_base, the slot is reported as a hit exactly when
addr < (b_base + b_size) mod 2^64; in particular a one-record trace
with that address in source_memory[0] produces a hit under exactly
that condition. -/
theorem C10_scan_window_wraparound (b_base b_size addr : Nat)
    (h1 : b_base < 2 ^ 64) (h2 : b_size < 2 ^ 64) (h3 : addr < 2 ^ 64)
    (hw : 2 ^ 64 ≤ b_base + b_size) (hge : b_base ≤ addr) :
    (hitTest b_base b_size addr = true ↔ addr < (b_base + b_size) % 2 ^ 64) ∧
    scan b_base b_size 0 [⟨0, 0, 0, [0, 0], [0, 0, 0, 0], [0, 0], [addr, 0, 0, 0]⟩] =
      (if addr < (b_base + b_size) % 2 ^ 64
        then [⟨0, HitKind.load, 0, addr, addr - b_base⟩] else []) := by
  have hpos : 0 < addr := by omega
  have hiff : hitTest b_base b_size addr = true ↔ addr < (b_base + b_size) % 2 ^ 64 := by
    simp [hitTest]
    omega
  have hzero : hitTest b_base b_size 0 = false := by
    simp [hitTest]
  refine ⟨hiff, ?_⟩
  by_cases hc : addr < (b_base + b_size) % 2 ^ 64
  · have htrue : hitTest b_base b_size addr = true := hiff.mpr hc
    rw [if_pos hc]
    unfold scan
    rw [scanRecords_unlimited]
    simp [recordSlots, List.enumFrom, List.filter_cons, htrue, hzero, mkHit]
  · have hfalse : hitTest b_base b_size addr = false := by
      rcases Bool.eq_false_or_eq_true (hitTest b_base b_size addr) with h | h
      · exact absurd (hiff.mp h) hc
      · exact h
    rw [if_neg hc]
    unfold scan
    rw [scanRecords_unlimited]
    simp [recordSlots, List.enumFrom, List.filter_cons, hfalse, hzero, mkHit]

/-- Witness for C10: with b_base = 2^64 - 1 and b_size = 2 the window
wraps (sum is 2^64 + 1, reduced to 1), and the top address 2^64 - 1,
inside the intended window, is not reported. -/
theorem C10_scan_window_wraparound_witness :
    (hitTest (2 ^ 64 - 1) 2 (2 ^ 64 - 1) = true ↔
      2 ^ 64 - 1 < (2 ^ 64 - 1 + 2) % 2 ^ 64) ∧
    scan (2 ^ 64 - 1) 2 0 [⟨0, 0, 0, [0, 0], [0, 0, 0, 0], [0, 0], [2 ^ 64 - 1, 0, 0, 0]⟩] =
      (if 2 ^ 64 - 1 < (2 ^ 64 - 1 + 2) % 2 ^ 64
        then [⟨0, HitKind.load, 0, 2 ^ 64 - 1, 2 ^ 64 - 1 - (2 ^ 64 - 1)⟩] else []) :=
  C10_scan_window_wraparound (2 ^ 64 - 1) 2 (2 ^ 64 - 1)
    (by norm_num) (by norm_num) (by norm_num) (by norm_num) (by norm_num)

/-! ## Periodic multi-range splicer (trace_insert_all_iters.c)

The tool derives, from the float inputs, the two integers
a_offset = (int64_t)(a_len * a_pos) and the raw
(int64_t)(b_len * b_ratio) turned into b_insert_len by the minimum-1
floor (lines 163 to 169).  The streaming phase (lines 288 to 393) only
ever sees those two integers, so the embedding takes them as explicit
configuration values; the validated ranges of the ratios guarantee
0 <= a_offset <= a_len and 1 <= b_insert_len <= b_len. -/

/-- The integer configuration of trace_insert_all_iters.c main after
argument parsing and derived-value computation. -/
structure ItersCfg where
  every : Nat
  iterations : Nat
  first_a_begin : Nat
  a_len : Nat
  b_len : Nat
  a_offset : Nat
  b_insert_len : Nat
deriving DecidableEq

/-- iter_len = a_len + b_len (line 164). -/
def iterLen (c : ItersCfg) : Nat := c.a_len + c.b_len

/-- a_begin_i = first_a_begin + i * iter_len (lines 298, 367). -/
def aBeginOf (c : ItersCfg) (i : Nat) : Nat := c.first_a_begin + i * iterLen c

/-- next_insert_at = a_begin_i + a_offset (lines 299, 368). -/
def insertAtOf (c : ItersCfg) (i : Nat) : Nat := aBeginOf c i + c.a_offset

/-- next_b_begin = a_begin_i + a_len (lines 300, 369). -/
def bBeginOf (c : ItersCfg) (i : Nat) : Nat := aBeginOf c i + c.a_len

/-- The per-iteration B payload: fseek to next_b_begin and fread
b_insert_len records from the (unmodified) input file. -/
def blockOf (c : ItersCfg) (input : List Chunk) (i : Nat) : List Chunk :=
  readRange input (bBeginOf c i) (bBeginOf c i + c.b_insert_len)

/-- The scan for the next active iteration (the two identical while
loops at lines 296 to 304 and 365 to 373): starting from iteration j,
return the first iteration index satisfying every > 0 and
i % every == 0, or none when the scan passes iterations.  The fuel k is
the number of iteration indices left to examine (iterations - j). -/
def findNextK (every : Nat) : Nat → Nat → Option Nat
  | 0, _ => none
  | k + 1, j => if 0 < every ∧ j % every = 0 then some j else findNextK every k (j + 1)

/-- The scanning loop entered at iteration j: examines j, j+1, ...,
iterations - 1.  A none result models next_insert_at staying -1. -/
def findNext (every iterations j : Nat) : Option Nat :=
  findNextK every (iterations - j) j

/-- The list of active iterations from j on (the iterations the scan
loop would select one after the other); used to relate the single
pending insertion point of the code to the whole remaining plan. -/
def activeFromK (every : Nat) : Nat → Nat → List Nat
  | 0, _ => []
  | k + 1, j =>
      if 0 < every ∧ j % every = 0 then j :: activeFromK every k (j + 1)
      else activeFromK every k (j + 1)

/-- All active iterations from j to iterations - 1. -/
def activeFrom (every iterations j : Nat) : List Nat :=
  activeFromK every (iterations - j) j

/-- The streaming loop of trace_insert_all_iters.c main (lines 306 to
393): read one record at a time; when the running input index equals the
pending insertion point, seek to the B chunk of that iteration, read and
write it, seek back, and advance the pending point to the next active
iteration; then write the original record. -/
def loopIters (c : ItersCfg) (input : List Chunk) : List Chunk → Nat → Option Nat → List Chunk
  | [], _, _ => []
  | r :: rest, in_idx, none => r :: loopIters c input rest (in_idx + 1) none
  | r :: rest, in_idx, some i =>
      if in_idx = insertAtOf c i then
        blockOf c input i ++
          r :: loopIters c input rest (in_idx + 1) (findNext c.every c.iterations (i + 1))
      else r :: loopIters c input rest (in_idx + 1) (some i)

/-- trace_insert_all_iters.c streaming phase: find the first insertion
point (lines 296 to 304), then stream the whole input. -/
def allItersRun (c : ItersCfg) (input : List Chunk) : List Chunk :=
  loopIters c input input 0 (findNext c.every c.iterations 0)

/-- Modelled from the spec: the naive specification of periodic
splicing.  Given the insertion plan as a list of (point, block) pairs
with points in increasing order, the output is the original records up
to the first point, then the first block immediately before the record
at that original index, then the rest of the plan applied to the rest
of the records. -/
def naiveSplice : List (Nat × List Chunk) → Nat → List Chunk → List Chunk
  | [], _, rem => rem
  | (p, blk) :: pts, base, rem =>
      rem.take (p - base) ++ blk ++ naiveSplice pts p (rem.drop (p - base))

/-! Facts about the scanning loop. -/

theorem findNextK_none (every : Nat) :
    ∀ (k j : Nat), findNextK every k j = none → activeFromK every k j = [] := by
  intro k
  induction k with
  | zero => intro j _; rfl
  | succ k ih =>
      intro j h
      by_cases hp : 0 < every ∧ j % every = 0
      · rw [findNextK, if_pos hp] at h
        cases h
      · rw [findNextK, if_neg hp] at h
        rw [activeFromK, if_neg hp]
        exact ih (j + 1) h

theorem findNextK_some (every : Nat) :
    ∀ (k j i : Nat), findNextK every k j = some i →
      j ≤ i ∧ i < j + k ∧ 0 < every ∧ i % every = 0 := by
  intro k
  induction k with
  | zero => intro j i h; cases h
  | succ k ih =>
      intro j i h
      by_cases hp : 0 < every ∧ j % every = 0
      · rw [findNextK, if_pos hp] at h
        cases h
        exact ⟨le_refl _, by omega, hp⟩
      · rw [findNextK, if_neg hp] at h
        have := ih (j + 1) i h
        exact ⟨by omega, by omega, this.2.2⟩

theorem findNextK_activeFromK (every : Nat) :
    ∀ (k j i : Nat), findNextK every k j = some i →
      activeFromK every k j = i :: activeFromK every (k - (i + 1 - j)) (i + 1) := by
  intro k
  induction k with
  | zero => intro j i h; cases h
  | succ k ih =>
      intro j i h
      by_cases hp : 0 < every ∧ j % every = 0
      · rw [findNextK, if_pos hp] at h
        cases h
        rw [activeFromK, if_pos hp]
        have : k + 1 - (j + 1 - j) = k := by omega
        rw [this]
      · rw [findNextK, if_neg hp] at h
        have hge := (findNextK_some every k (j + 1) i h).1
        rw [activeFromK, if_neg hp, ih (j + 1) i h]
        have : k + 1 - (i + 1 - j) = k - (i + 1 - (j + 1)) := by omega
        rw [this]

theorem activeFromK_mem (every : Nat) :
    ∀ (k j x : Nat), x ∈ activeFromK every k j → j ≤ x ∧ x < j + k := by
  intro k
  induction k with
  | zero => intro j x h; cases h
  | succ k ih =>
      intro j x h
      by_cases hp : 0 < every ∧ j % every = 0
      · rw [activeFromK, if_pos hp] at h
        rcases List.mem_cons.mp h with h | h
        · omega
        · have := ih (j + 1) x h
          omega
      · rw [activeFromK, if_neg hp] at h
        have := ih (j + 1) x h
        omega

/-- Wrapper forms of the scanning facts at fuel iterations - j. -/
theorem findNext_none_active (every iterations j : Nat)
    (h : findNext every iterations j = none) : activeFrom every iterations j = [] :=
  findNextK_none every _ j h

theorem findNext_some_active (every iterations j i : Nat)
    (h : findNext every iterations j = some i) :
    j ≤ i ∧ i < iterations ∧
      activeFrom every iterations j = i :: activeFrom every iterations (i + 1) := by
  have h1 := findNextK_some every (iterations - j) j i h
  have h2 := findNextK_activeFromK every (iterations - j) j i h
  have hk : iterations - j - (i + 1 - j) = iterations - (i + 1) := by omega
  refine ⟨h1.1, by omega, ?_⟩
  rw [activeFrom, h2, hk]
  rfl

theorem activeFrom_mem (every iterations j x : Nat)
    (h : x ∈ activeFrom every iterations j) : j ≤ x ∧ x < iterations := by
  have := activeFromK_mem every (iterations - j) j x h
  omega

/-- With every = 0 the scanning loop never selects an iteration. -/
theorem findNextK_every_zero : ∀ (k j : Nat), findNextK 0 k j = none := by
  intro k
  induction k with
  | zero => intro j; rfl
  | succ k ih =>
      intro j
      rw [findNextK, if_neg (by omega)]
      exact ih (j + 1)

/-- With no pending insertion point the streaming loop copies its
input unchanged. -/
theorem loopIters_none (c : ItersCfg) (input : List Chunk) :
    ∀ (rem : List Chunk) (in_idx : Nat),
      loopIters c input rem in_idx none = rem := by
  intro rem
  induction rem with
  | nil => intro in_idx; rfl
  | cons r rest ih =>
      intro in_idx
      rw [loopIters, ih]

/-- Shifting one record out of the remainder commutes with naiveSplice
when every remaining insertion point lies strictly beyond the base. -/
theorem naiveSplice_cons (pts : List (Nat × List Chunk)) (base : Nat) (r : Chunk)
    (rest : List Chunk) (h : ∀ q ∈ pts, base < q.1) :
    naiveSplice pts base (r :: rest) = r :: naiveSplice pts (base + 1) rest := by
  cases pts with
  | nil => rfl
  | cons q pts2 =>
      obtain ⟨p, blk⟩ := q
      have hbp : base < p := h (p, blk) (List.mem_cons_self _ _)
      have hsub : p - base = (p - (base + 1)) + 1 := by omega
      simp only [naiveSplice, hsub, List.take_succ_cons, List.drop_succ_cons]
      simp

/-- Strict monotonicity of the insertion points in the iteration
index (iter_len is positive since a_len and b_len are). -/
theorem insertAtOf_mono (c : ItersCfg) (hL : 0 < iterLen c) {i x : Nat} (h : i < x) :
    insertAtOf c i < insertAtOf c x := by
  unfold insertAtOf aBeginOf
  have := (Nat.mul_lt_mul_right hL).mpr h
  omega

/-- The streaming loop with pending point computed from iteration j
produces exactly the naive splice of the plan of active iterations from
j on, as long as every remaining point lies in the window covered by
the remaining records. -/
theorem loopIters_eq_naive (c : ItersCfg) (input : List Chunk) (hL : 0 < iterLen c) :
    ∀ (rem : List Chunk) (in_idx j : Nat),
      (∀ i ∈ activeFrom c.every c.iterations j, in_idx ≤ insertAtOf c i) →
      (∀ i ∈ activeFrom c.every c.iterations j, insertAtOf c i < in_idx + rem.length) →
      loopIters c input rem in_idx (findNext c.every c.iterations j) =
        naiveSplice ((activeFrom c.every c.iterations j).map
          (fun i => (insertAtOf c i, blockOf c input i))) in_idx rem := by
  intro rem
  induction rem with
  | nil =>
      intro in_idx j hlo hhi
      rcases hAF : activeFrom c.every c.iterations j with _ | ⟨i, tl⟩
      · cases findNext c.every c.iterations j <;> rfl
      · exfalso
        have h1 := hlo i (by rw [hAF]; exact List.mem_cons_self _ _)
        have h2 := hhi i (by rw [hAF]; exact List.mem_cons_self _ _)
        simp only [List.length_nil] at h2
        omega
  | cons r rest ih =>
      intro in_idx j hlo hhi
      cases hfn : findNext c.every c.iterations j with
      | none =>
          have hAF : activeFrom c.every c.iterations j = [] := findNext_none_active _ _ _ hfn
          rw [hAF]
          have hrec := ih (in_idx + 1) j (by rw [hAF]; simp) (by rw [hAF]; simp)
          rw [hfn, hAF] at hrec
          simp only [List.map_nil, naiveSplice] at hrec ⊢
          rw [loopIters, hrec]
      | some i =>
          obtain ⟨hji, hin, hAF⟩ := findNext_some_active _ _ _ _ hfn
          have htl : ∀ x ∈ activeFrom c.every c.iterations (i + 1),
              insertAtOf c i < insertAtOf c x := by
            intro x hx
            exact insertAtOf_mono c hL (by have := activeFrom_mem _ _ _ _ hx; omega)
          have htlmem : ∀ x ∈ activeFrom c.every c.iterations (i + 1),
              x ∈ activeFrom c.every c.iterations j := by
            intro x hx
            rw [hAF]
            exact List.mem_cons_of_mem _ hx
          rw [hAF, List.map_cons]
          by_cases hfire : in_idx = insertAtOf c i
          · rw [loopIters, if_pos hfire]
            have hrec := ih (in_idx + 1) (i + 1)
              (by
                intro x hx
                have := htl x hx
                omega)
              (by
                intro x hx
                have := hhi x (htlmem x hx)
                simp only [List.length_cons] at this
                omega)
            rw [hrec]
            rw [naiveSplice, ← hfire, Nat.sub_self, List.take_zero, List.drop_zero,
              List.nil_append]
            congr 1
            rw [naiveSplice_cons _ _ _ _ (by
              intro q hq
              rw [List.mem_map] at hq
              obtain ⟨x, hx, hqx⟩ := hq
              rw [← hqx]
              have := htl x hx
              omega)]
          · rw [loopIters, if_neg hfire]
            have hi0 : in_idx < insertAtOf c i :=
              lt_of_le_of_ne (hlo i (by rw [hAF]; exact List.mem_cons_self _ _))
                hfire
            have hrec := ih (in_idx + 1) j
              (by
                intro x hx
                rw [hAF] at hx
                rcases List.mem_cons.mp hx with h | h
                · subst h; omega
                · have := htl x h
                  omega)
              (by
                intro x hx
                have := hhi x hx
                simp only [List.length_cons] at this
                omega)
            rw [hfn] at hrec
            rw [hrec, hAF, List.map_cons]
            rw [naiveSplice_cons _ _ _ _ (by
              intro q hq
              rcases List.mem_cons.mp hq with h | h
              · rw [h]; exact hi0
              · rw [List.mem_map] at h
                obtain ⟨x, hx, hqx⟩ := h
                rw [← hqx]
                have := htl x hx
                omega)]

/-- The list of active iterations is exactly the filter of the
iteration range by the periodicity predicate. -/
theorem activeFromK_eq_filter (every : Nat) (he : 1 ≤ every) :
    ∀ (k j : Nat), activeFromK every k j =
      (List.range' j k).filter (fun i => decide (i % every = 0)) := by
  intro k
  induction k with
  | zero => intro j; rfl
  | succ k ih =>
      intro j
      rw [List.range'_succ, List.filter_cons]
      by_cases hp : j % every = 0
      · rw [activeFromK, if_pos ⟨by omega, hp⟩, ih (j + 1)]
        simp [hp]
      · rw [activeFromK, if_neg (by omega), ih (j + 1)]
        simp [hp]

/-- Specialization at the start: the plan enumerates the active
iterations of range iterations in increasing order. -/
theorem activeFrom_zero_eq (every iterations : Nat) (he : 1 ≤ every) :
    activeFrom every iterations 0 =
      (List.range iterations).filter (fun i => decide (i % every = 0)) := by
  rw [activeFrom, Nat.sub_zero, activeFromK_eq_filter every he, List.range_eq_range']

/-- Every insertion point of a valid configuration lies strictly inside
the input (the structure bound validated at lines 236 to 243 covers the
whole addressed region). -/
theorem insertAtOf_lt (c : ItersCfg) (input : List Chunk)
    (h4 : 1 ≤ c.b_len) (h5 : c.a_offset ≤ c.a_len)
    (h8 : c.first_a_begin + c.iterations * iterLen c ≤ input.length)
    {i : Nat} (hi : i < c.iterations) : insertAtOf c i < input.length := by
  have hstep : (i + 1) * iterLen c = i * iterLen c + iterLen c := Nat.succ_mul _ _
  have hle : (i + 1) * iterLen c ≤ c.iterations * iterLen c :=
    Nat.mul_le_mul_right _ (by omega)
  have haoffL : c.a_offset < iterLen c := by unfold iterLen; omega
  unfold insertAtOf aBeginOf
  omega

/-- Every per-iteration B payload of a valid configuration lies fully
inside the input. -/
theorem bBlock_le (c : ItersCfg) (input : List Chunk)
    (h7 : c.b_insert_len ≤ c.b_len)
    (h8 : c.first_a_begin + c.iterations * iterLen c ≤ input.length)
    {i : Nat} (hi : i < c.iterations) :
    bBeginOf c i + c.b_insert_len ≤ input.length := by
  have hstep : (i + 1) * iterLen c = i * iterLen c + iterLen c := Nat.succ_mul _ _
  have hle : (i + 1) * iterLen c ≤ c.iterations * iterLen c :=
    Nat.mul_le_mul_right _ (by omega)
  have hsum : c.a_len + c.b_insert_len ≤ iterLen c := by unfold iterLen; omega
  unfold bBeginOf aBeginOf
  omega

/-- An in-bounds B payload has exactly b_insert_len records. -/
theorem blockOf_length (c : ItersCfg) (input : List Chunk) {i : Nat}
    (h : bBeginOf c i + c.b_insert_len ≤ input.length) :
    (blockOf c input i).length = c.b_insert_len := by
  unfold blockOf readRange
  simp only [List.length_take, List.length_drop]
  omega

/-- Length of a naive splice: the remainder plus all block lengths,
for an increasing in-window plan. -/
theorem naiveSplice_length :
    ∀ (pts : List (Nat × List Chunk)) (base : Nat) (rem : List Chunk),
      List.Pairwise (fun a b : Nat × List Chunk => a.1 ≤ b.1) pts →
      (∀ q ∈ pts, base ≤ q.1 ∧ q.1 ≤ base + rem.length) →
      (naiveSplice pts base rem).length =
        rem.length + (pts.map (fun q => q.2.length)).sum := by
  intro pts
  induction pts with
  | nil => intro base rem _ _; simp [naiveSplice]
  | cons q pts2 ih =>
      intro base rem hpair hbnd
      obtain ⟨p, blk⟩ := q
      obtain ⟨hlb, hub⟩ := hbnd (p, blk) (List.mem_cons_self _ _)
      have hpair2 := (List.pairwise_cons.mp hpair).2
      have hhead := (List.pairwise_cons.mp hpair).1
      have hrec := ih p (rem.drop (p - base)) hpair2 (by
        intro q2 hq2
        obtain ⟨hl2, hu2⟩ := hbnd q2 (List.mem_cons_of_mem _ hq2)
        have := hhead q2 hq2
        simp only [List.length_drop]
        omega)
      simp only [naiveSplice, List.length_append, hrec, List.length_take,
        List.length_drop, List.map_cons, List.sum_cons]
      omega

/-- C9: Periodic splicer refinement.  The single-pass seek-based
streaming algorithm equals the naive specification: for every valid
configuration (the derived a_offset and b_insert_len satisfy the bounds
the validated float ratios guarantee, and the iteration structure fits
inside the input), the output is the input with, for each active
iteration i (i % every = 0, in increasing order), the input records
[first_a_begin + i*(a_len+b_len) + a_len, + b_insert_len) inserted
immediately before the record at original index
first_a_begin + i*(a_len+b_len) + a_offset, all original records kept
in order. -/
theorem C9_stream_refines_naive (c : ItersCfg) (input : List Chunk)
    (h1 : 1 ≤ c.every) (h2 : 1 ≤ c.iterations) (h3 : 1 ≤ c.a_len) (h4 : 1 ≤ c.b_len)
    (h5 : c.a_offset ≤ c.a_len) (h6 : 1 ≤ c.b_insert_len) (h7 : c.b_insert_len ≤ c.b_len)
    (h8 : c.first_a_begin + c.iterations * (c.a_len + c.b_len) ≤ input.length) :
    allItersRun c input =
      naiveSplice (((List.range c.iterations).filter
          (fun i => decide (i % c.every = 0))).map
        (fun i => (c.first_a_begin + i * (c.a_len + c.b_len) + c.a_offset,
          (input.drop (c.first_a_begin + i * (c.a_len + c.b_len) + c.a_len)).take
            c.b_insert_len))) 0 input := by
  have hL : 0 < iterLen c := by unfold iterLen; omega
  have h8L : c.first_a_begin + c.iterations * iterLen c ≤ input.length := by
    unfold iterLen; exact h8
  have hmain := loopIters_eq_naive c input hL input 0 0
    (fun i _ => Nat.zero_le _)
    (by
      intro i hi
      have hm := activeFrom_mem _ _ _ _ hi
      have := insertAtOf_lt c input h4 h5 h8L hm.2
      omega)
  unfold allItersRun
  rw [hmain]
  rw [activeFrom_zero_eq c.every c.iterations h1]
  congr 1
  apply List.map_congr_left
  intro i _
  simp only [Prod.mk.injEq]
  constructor
  · rfl
  · unfold blockOf readRange bBeginOf aBeginOf iterLen
    congr 1
    omega

/-- Witness for C9: a 5-record trace with structure fab = 1,
a_len = b_len = 1, two iterations, insert point at each A start,
one B record inserted per iteration. -/
theorem C9_stream_refines_naive_witness :
    allItersRun ⟨1, 2, 1, 1, 1, 0, 1⟩ [[0],[1],[2],[3],[4]] =
      [[0],[2],[1],[2],[4],[3],[4]] := by
  have h := C9_stream_refines_naive ⟨1, 2, 1, 1, 1, 0, 1⟩ [[0],[1],[2],[3],[4]]
    (by decide) (by decide) (by decide) (by decide) (by decide) (by decide)
    (by decide) (by decide)
  rw [h]
  rfl

/-- C6: Periodic splicer counts.  For every valid configuration with
every = 1 the output has input length plus iterations * b_insert_len
records (iterations * b_insert_len records inserted in total), and with
every = 0 the output is byte-identical to the input. -/
theorem C6_periodic_splicer_counts
    (iterations fab a_len b_len a_offset b_insert_len : Nat) (input : List Chunk)
    (h2 : 1 ≤ iterations) (h3 : 1 ≤ a_len) (h4 : 1 ≤ b_len)
    (h5 : a_offset ≤ a_len) (h6 : 1 ≤ b_insert_len) (h7 : b_insert_len ≤ b_len)
    (h8 : fab + iterations * (a_len + b_len) ≤ input.length) :
    (allItersRun ⟨1, iterations, fab, a_len, b_len, a_offset, b_insert_len⟩ input).length =
      input.length + iterations * b_insert_len ∧
    allItersRun ⟨0, iterations, fab, a_len, b_len, a_offset, b_insert_len⟩ input = input := by
  constructor
  · set c : ItersCfg := ⟨1, iterations, fab, a_len, b_len, a_offset, b_insert_len⟩ with hc
    have hL : 0 < iterLen c := by unfold iterLen; show 0 < a_len + b_len; omega
    have h8L : c.first_a_begin + c.iterations * iterLen c ≤ input.length := by
      unfold iterLen; exact h8
    have hb4 : 1 ≤ c.b_len := h4
    have hb5 : c.a_offset ≤ c.a_len := h5
    have hb7 : c.b_insert_len ≤ c.b_len := h7
    have hmain := loopIters_eq_naive c input hL input 0 0
      (fun i _ => Nat.zero_le _)
      (by
        intro i hi
        have hm := activeFrom_mem _ _ _ _ hi
        have := insertAtOf_lt c input hb4 hb5 h8L hm.2
        omega)
    have hAF : activeFrom c.every c.iterations 0 = List.range iterations := by
      show activeFrom 1 iterations 0 = List.range iterations
      rw [activeFrom_zero_eq 1 iterations (le_refl 1)]
      apply List.filter_eq_self.mpr
      intro a _
      simp [Nat.mod_one]
    unfold allItersRun
    rw [hmain, hAF]
    rw [naiveSplice_length _ _ _
      (by
        apply List.pairwise_map.mpr
        apply List.Pairwise.imp (fun h => le_of_lt (insertAtOf_mono c hL h))
        exact List.pairwise_lt_range iterations)
      (by
        intro q hq
        rw [List.mem_map] at hq
        obtain ⟨i, hi, hqi⟩ := hq
        rw [List.mem_range] at hi
        have := insertAtOf_lt c input hb4 hb5 h8L hi
        rw [← hqi]
        constructor
        · exact Nat.zero_le _
        · omega)]
    congr 1
    rw [List.map_map]
    rw [List.map_congr_left (fun i hi => by
      show (blockOf c input i).length = b_insert_len
      exact blockOf_length c input
        (bBlock_le c input hb7 h8L (List.mem_range.mp hi)))]
    rw [List.map_const', List.sum_replicate, smul_eq_mul, List.length_range]
  · show loopIters _ input input 0 (findNext 0 iterations 0) = input
    rw [show findNext 0 iterations 0 = none from findNextK_every_zero _ _]
    exact loopIters_none _ input input 0

/-- Witness for C6 at the concrete 5-record structure of the C9
witness: every = 1 inserts 2 * 1 records; every = 0 copies the input. -/
theorem C6_periodic_splicer_counts_witness :
    (allItersRun ⟨1, 2, 1, 1, 1, 0, 1⟩ [[0],[1],[2],[3],[4]]).length = 5 + 2 * 1 ∧
    allItersRun ⟨0, 2, 1, 1, 1, 0, 1⟩ [[0],[1],[2],[3],[4]] = [[0],[1],[2],[3],[4]] := by
  have h := C6_periodic_splicer_counts 2 1 1 1 0 1 [[0],[1],[2],[3],[4]]
    (by decide) (by decide) (by decide) (by decide) (by decide) (by decide) (by decide)
  exact ⟨by rw [h.1]; rfl, h.2⟩

/-! ## Tool mains: validation order, exit codes and output creation

Each wrapper below follows its C main top to bottom: required-argument
checks, range and ratio checks, the file-size multiple check, the
dry-run return, then the streaming phase.  output = none means the
output file was never created (every return before fopen(out_path)).
The source-range fread short-read check (which in every single-range
tool runs before the output file is opened) is modelled explicitly.

The two ratio tools derive a_offset = (int64_t)(a_len * a_pos) and the
raw (int64_t)(b_len * b_ratio) in C double arithmetic; the wrappers
take those two already-computed integers as parameters (a_prod,
b_prod).  The validated ranges 0 <= a_pos <= 1 and 0 < b_ratio <= 1
make both casts nonnegative, with a_prod <= a_len and b_prod <= b_len;
for trace_insert_all_iters_main the in-stream B-chunk freads are
modelled as full reads, which those bounds guarantee. -/

/-- Exit code and output-file content of one splicer invocation;
output = none when no output file was created. -/
structure ToolResult where
  exitCode : Nat
  output : Option (List Chunk)
deriving DecidableEq

/-- trace_insert_range.c main (lines 97 to 299). -/
def trace_insert_range_main (have_in have_out dry_run : Bool)
    (src_begin src_end insert_at : Int) (file : List Nat) : ToolResult :=
  if ¬ have_in then ⟨1, none⟩
  else if ¬ have_out ∧ ¬ dry_run then ⟨1, none⟩
  else if src_begin < 0 ∨ src_end < 0 ∨ insert_at < 0 then ⟨1, none⟩
  else if src_begin ≥ src_end then ⟨1, none⟩
  else if file.length % recordSize ≠ 0 then ⟨1, none⟩
  else if src_end > ((file.length / recordSize : Nat) : Int) then ⟨1, none⟩
  else if insert_at > ((file.length / recordSize : Nat) : Int) then ⟨1, none⟩
  else if dry_run then ⟨0, none⟩
  else if (readRange (bytesToChunks file) src_begin.toNat src_end.toNat).length ≠
      (src_end - src_begin).toNat then ⟨1, none⟩
  else ⟨0, some (insertRun (bytesToChunks file) src_begin.toNat src_end.toNat
    insert_at.toNat)⟩

/-- trace_overwrite_range.c main (lines 97 to 270). -/
def trace_overwrite_range_main (have_in have_out dry_run : Bool)
    (src_begin src_end dst_begin : Int) (file : List Nat) : ToolResult :=
  if ¬ have_in then ⟨1, none⟩
  else if ¬ have_out ∧ ¬ dry_run then ⟨1, none⟩
  else if src_begin < 0 ∨ src_end < 0 ∨ dst_begin < 0 then ⟨1, none⟩
  else if src_begin ≥ src_end then ⟨1, none⟩
  else if file.length % recordSize ≠ 0 then ⟨1, none⟩
  else if src_end > ((file.length / recordSize : Nat) : Int) then ⟨1, none⟩
  else if dst_begin + (src_end - src_begin) > ((file.length / recordSize : Nat) : Int) then
    ⟨1, none⟩
  else if dry_run then ⟨0, none⟩
  else if (readRange (bytesToChunks file) src_begin.toNat src_end.toNat).length ≠
      (src_end - src_begin).toNat then ⟨1, none⟩
  else ⟨0, some (overwriteRun (bytesToChunks file) src_begin.toNat src_end.toNat
    dst_begin.toNat)⟩

/-- trace_insert_b_at_a.c main (lines 124 to 376); a_prod and b_prod
are the two double-product casts computed at lines 172 to 176. -/
def trace_insert_b_at_a_main (have_in have_out dry_run : Bool)
    (a_begin a_end b_begin b_end : Int) (a_pos b_ratio : Rat)
    (a_prod b_prod : Nat) (file : List Nat) : ToolResult :=
  if ¬ have_in then ⟨1, none⟩
  else if ¬ have_out ∧ ¬ dry_run then ⟨1, none⟩
  else if a_begin < 0 ∨ a_end < 0 ∨ b_begin < 0 ∨ b_end < 0 then ⟨1, none⟩
  else if a_pos < 0 ∨ b_ratio < 0 then ⟨1, none⟩
  else if a_begin ≥ a_end then ⟨1, none⟩
  else if b_begin ≥ b_end then ⟨1, none⟩
  else if a_pos < 0 ∨ a_pos > 1 then ⟨1, none⟩
  else if b_ratio ≤ 0 ∨ b_ratio > 1 then ⟨1, none⟩
  else if file.length % recordSize ≠ 0 then ⟨1, none⟩
  else if a_end > ((file.length / recordSize : Nat) : Int) then ⟨1, none⟩
  else if b_end > ((file.length / recordSize : Nat) : Int) then ⟨1, none⟩
  else if a_begin + (a_prod : Int) > ((file.length / recordSize : Nat) : Int) then ⟨1, none⟩
  else if dry_run then ⟨0, none⟩
  else if (readRange (bytesToChunks file) b_begin.toNat
      (b_begin + ((if b_prod = 0 then 1 else b_prod : Nat) : Int)).toNat).length ≠
      (if b_prod = 0 then 1 else b_prod) then ⟨1, none⟩
  else ⟨0, some (insertRun (bytesToChunks file) b_begin.toNat
    (b_begin + ((if b_prod = 0 then 1 else b_prod : Nat) : Int)).toNat
    (a_begin + (a_prod : Int)).toNat)⟩

/-- trace_insert_all_iters.c main (lines 127 to 405); a_offset_prod and
b_prod are the two double-product casts computed at lines 163 to 169.
The in-stream per-iteration B freads are modelled as full reads, which
holds whenever a_offset_prod <= a_len and b_prod <= b_len (guaranteed
by the validated ratio ranges). -/
def trace_insert_all_iters_main (have_in have_out dry_run : Bool)
    (first_a_begin a_len b_len iterations every : Int) (a_pos b_ratio : Rat)
    (a_offset_prod b_prod : Nat) (file : List Nat) : ToolResult :=
  if ¬ have_in then ⟨1, none⟩
  else if ¬ have_out ∧ ¬ dry_run then ⟨1, none⟩
  else if first_a_begin < 0 ∨ a_len ≤ 0 ∨ b_len ≤ 0 ∨ iterations ≤ 0 then ⟨1, none⟩
  else if a_pos < 0 ∨ b_ratio < 0 then ⟨1, none⟩
  else if a_pos < 0 ∨ a_pos > 1 then ⟨1, none⟩
  else if b_ratio ≤ 0 ∨ b_ratio > 1 then ⟨1, none⟩
  else if every < 0 then ⟨1, none⟩
  else if file.length % recordSize ≠ 0 then ⟨1, none⟩
  else if first_a_begin + iterations * (a_len + b_len) >
      ((file.length / recordSize : Nat) : Int) then ⟨1, none⟩
  else if dry_run then ⟨0, none⟩
  else
    ⟨0, some (allItersRun
      ⟨every.toNat, iterations.toNat, first_a_begin.toNat, a_len.toNat, b_len.toNat,
        a_offset_prod, if b_prod = 0 then 1 else b_prod⟩ (bytesToChunks file))⟩

/-- Little-endian unsigned decoding of a byte list (first byte least
significant): how the fread bytes of one uint64_t field appear in
memory on the host. -/
def leU64 (bs : List Nat) : Nat := bs.foldr (fun b acc => b + 256 * acc) 0

/-- Decoding of one 64-byte record into struct input_instr at the
layout offsets: ip 0, is_branch 8, branch_taken 9,
destination_registers 10, source_registers 12, destination_memory 16,
source_memory 32. -/
def decodeRecord (c : Chunk) : TraceRecord :=
  { ip := (c.drop 0).take 8 |> leU64
    is_branch := c.getD 8 0
    branch_taken := c.getD 9 0
    destination_registers := (c.drop 10).take 2
    source_registers := (c.drop 12).take 4
    destination_memory := [(c.drop 16).take 8 |> leU64, (c.drop 24).take 8 |> leU64]
    source_memory := [(c.drop 32).take 8 |> leU64, (c.drop 40).take 8 |> leU64,
      (c.drop 48).take 8 |> leU64, (c.drop 56).take 8 |> leU64] }

/-- Exit code and emitted hit lines of one scanner invocation. -/
structure ScanResult where
  exitCode : Nat
  hits : List Hit
deriving DecidableEq

/-- find_b_accesses.c main (lines 87 to 168): after the required
arguments are present and the file opens, the tool always exits 0; it
performs no file-size check, the fread loop just stops at a trailing
partial record. -/
def find_b_accesses_main (have_trace have_base have_size : Bool)
    (b_base b_size max_hits : Nat) (file : List Nat) : ScanResult :=
  if ¬ (have_trace ∧ have_base ∧ have_size) then ⟨1, []⟩
  else ⟨0, scan b_base b_size max_hits ((bytesToChunks file).map decodeRecord)⟩

/-- Exit code and number of records displayed by one inspector
invocation. -/
structure InspectResult where
  exitCode : Nat
  shown : Nat
deriving DecidableEq

/-- trace_inspect.c main (lines 75 to 152): after --trace is present
and the file opens, the tool always exits 0, displaying
min(max_records, floor(len / record size)) records; it performs no
file-size check either. -/
def trace_inspect_main (have_trace : Bool) (max_records : Nat)
    (file : List Nat) : InspectResult :=
  if ¬ have_trace then ⟨1, 0⟩
  else ⟨0, min max_records (file.length / recordSize)⟩

/-- Counterexample to C4 as stated: a 65-byte file is not a multiple of
the record size, yet the address scanner (and likewise the inspector)
processes it and exits 0 instead of rejecting it with exit code 1 --
neither tool checks the file size. -/
theorem C4_corrupt_length_counterexample :
    (List.replicate 65 0).length % recordSize ≠ 0 ∧
    (find_b_accesses_main true true true 0 64 0 (List.replicate 65 0)).exitCode = 0 ∧
    (trace_inspect_main true 100 (List.replicate 65 0)).exitCode = 0 := by
  decide

/-- C4 amended: only the four splicing tools reject a file whose byte
length is not a multiple of the record size (fatal error, exit code 1,
no output file), provided their earlier argument checks pass; the
address scanner and the inspector perform no such check: with their
required arguments present they exit 0, processing only the complete
records and silently ignoring trailing bytes. -/
theorem C4_corrupt_length_rejection_amended (file : List Nat)
    (hbad : file.length % recordSize ≠ 0) :
    (∀ (dry_run : Bool) (src_begin src_end insert_at : Int),
      0 ≤ src_begin → src_begin < src_end → 0 ≤ insert_at →
      trace_insert_range_main true true dry_run src_begin src_end insert_at file =
        ⟨1, none⟩) ∧
    (∀ (dry_run : Bool) (src_begin src_end dst_begin : Int),
      0 ≤ src_begin → src_begin < src_end → 0 ≤ dst_begin →
      trace_overwrite_range_main true true dry_run src_begin src_end dst_begin file =
        ⟨1, none⟩) ∧
    (∀ (dry_run : Bool) (a_begin a_end b_begin b_end : Int) (a_pos b_ratio : Rat)
        (a_prod b_prod : Nat),
      0 ≤ a_begin → a_begin < a_end → 0 ≤ b_begin → b_begin < b_end →
      0 ≤ a_pos → a_pos ≤ 1 → 0 < b_ratio → b_ratio ≤ 1 →
      trace_insert_b_at_a_main true true dry_run a_begin a_end b_begin b_end a_pos
        b_ratio a_prod b_prod file = ⟨1, none⟩) ∧
    (∀ (dry_run : Bool) (first_a_begin a_len b_len iterations every : Int)
        (a_pos b_ratio : Rat) (a_offset_prod b_prod : Nat),
      0 ≤ first_a_begin → 0 < a_len → 0 < b_len → 0 < iterations → 0 ≤ every →
      0 ≤ a_pos → a_pos ≤ 1 → 0 < b_ratio → b_ratio ≤ 1 →
      trace_insert_all_iters_main true true dry_run first_a_begin a_len b_len iterations
        every a_pos b_ratio a_offset_prod b_prod file = ⟨1, none⟩) ∧
    (∀ (b_base b_size max_hits : Nat),
      (find_b_accesses_main true true true b_base b_size max_hits file).exitCode = 0) ∧
    (∀ max_records : Nat, (trace_inspect_main true max_records file).exitCode = 0) := by
  refine ⟨?_, ?_, ?_, ?_, ?_, ?_⟩
  · intro dry_run src_begin src_end insert_at ha hb hc
    simp only [trace_insert_range_main]
    rw [if_neg (by simp), if_neg (by simp), if_neg (by omega), if_neg (by omega),
      if_pos hbad]
  · intro dry_run src_begin src_end dst_begin ha hb hc
    simp only [trace_overwrite_range_main]
    rw [if_neg (by simp), if_neg (by simp), if_neg (by omega), if_neg (by omega),
      if_pos hbad]
  · intro dry_run a_begin a_end b_begin b_end a_pos b_ratio a_prod b_prod
      h1 h2 h3 h4 h5 h6 h7 h8
    simp only [trace_insert_b_at_a_main]
    rw [if_neg (by simp), if_neg (by simp), if_neg (by omega),
      if_neg (by push_neg; exact ⟨h5, le_of_lt h7⟩), if_neg (by omega),
      if_neg (by omega), if_neg (by push_neg; exact ⟨h5, h6⟩),
      if_neg (by push_neg; exact ⟨h7, h8⟩), if_pos hbad]
  · intro dry_run first_a_begin a_len b_len iterations every a_pos b_ratio
      a_offset_prod b_prod h1 h2 h3 h4 h5 h6 h7 h8 h9
    simp only [trace_insert_all_iters_main]
    rw [if_neg (by simp), if_neg (by simp), if_neg (by omega),
      if_neg (by push_neg; exact ⟨h6, le_of_lt h8⟩),
      if_neg (by push_neg; exact ⟨h6, h7⟩),
      if_neg (by push_neg; exact ⟨h8, h9⟩), if_neg (by omega), if_pos hbad]
  · intro b_base b_size max_hits
    simp [find_b_accesses_main]
  · intro max_records
    simp [trace_inspect_main]

/-- Witness for the amended C4 at the 65-byte file: the insert splicer
rejects it with exit 1 and no output, the scanner exits 0. -/
theorem C4_corrupt_length_rejection_amended_witness :
    trace_insert_range_main true true false 0 1 0 (List.replicate 65 0) = ⟨1, none⟩ ∧
    (find_b_accesses_main true true true 0 64 0 (List.replicate 65 0)).exitCode = 0 := by
  have h := C4_corrupt_length_rejection_amended (List.replicate 65 0) (by decide)
  exact ⟨h.1 false 0 1 0 (by decide) (by decide) (by decide), h.2.2.2.2.1 0 64 0⟩


/-- Both branches of a validation if satisfy exit-1-means-no-output. -/
theorem ite_exit_none (c : Prop) [Decidable c] (a b : ToolResult)
    (ha : a.exitCode = 1 → a.output = none) (hb : b.exitCode = 1 → b.output = none) :
    (if c then a else b).exitCode = 1 → (if c then a else b).output = none := by
  by_cases h : c
  · rw [if_pos h]; exact ha
  · rw [if_neg h]; exact hb

/-- Both branches of a validation if produce no output. -/
theorem ite_output_none (c : Prop) [Decidable c] (a b : ToolResult)
    (ha : a.output = none) (hb : b.output = none) :
    (if c then a else b).output = none := by
  by_cases h : c
  · rw [if_pos h]; exact ha
  · rw [if_neg h]; exact hb

set_option maxHeartbeats 1000000 in
/-- C8: No output before validation.  For each splicing tool, every
invocation that exits with code 1 out of the validation phase has
created no output file, and every dry-run invocation creates no output
file at all (the output file is opened only after all argument and
range validation, and the source-range load, have succeeded). -/
theorem C8_no_output_before_validation :
    (∀ (have_in have_out dry_run : Bool) (src_begin src_end insert_at : Int)
        (file : List Nat),
      ((trace_insert_range_main have_in have_out dry_run src_begin src_end insert_at
          file).exitCode = 1 →
        (trace_insert_range_main have_in have_out dry_run src_begin src_end insert_at
          file).output = none) ∧
      (dry_run = true →
        (trace_insert_range_main have_in have_out dry_run src_begin src_end insert_at
          file).output = none)) ∧
    (∀ (have_in have_out dry_run : Bool) (src_begin src_end dst_begin : Int)
        (file : List Nat),
      ((trace_overwrite_range_main have_in have_out dry_run src_begin src_end dst_begin
          file).exitCode = 1 →
        (trace_overwrite_range_main have_in have_out dry_run src_begin src_end dst_begin
          file).output = none) ∧
      (dry_run = true →
        (trace_overwrite_range_main have_in have_out dry_run src_begin src_end dst_begin
          file).output = none)) ∧
    (∀ (have_in have_out dry_run : Bool) (a_begin a_end b_begin b_end : Int)
        (a_pos b_ratio : Rat) (a_prod b_prod : Nat) (file : List Nat),
      ((trace_insert_b_at_a_main have_in have_out dry_run a_begin a_end b_begin b_end
          a_pos b_ratio a_prod b_prod file).exitCode = 1 →
        (trace_insert_b_at_a_main have_in have_out dry_run a_begin a_end b_begin b_end
          a_pos b_ratio a_prod b_prod file).output = none) ∧
      (dry_run = true →
        (trace_insert_b_at_a_main have_in have_out dry_run a_begin a_end b_begin b_end
          a_pos b_ratio a_prod b_prod file).output = none)) ∧
    (∀ (have_in have_out dry_run : Bool) (first_a_begin a_len b_len iterations every : Int)
        (a_pos b_ratio : Rat) (a_offset_prod b_prod : Nat) (file : List Nat),
      ((trace_insert_all_iters_main have_in have_out dry_run first_a_begin a_len b_len
          iterations every a_pos b_ratio a_offset_prod b_prod file).exitCode = 1 →
        (trace_insert_all_iters_main have_in have_out dry_run first_a_begin a_len b_len
          iterations every a_pos b_ratio a_offset_prod b_prod file).output = none) ∧
      (dry_run = true →
        (trace_insert_all_iters_main have_in have_out dry_run first_a_begin a_len b_len
          iterations every a_pos b_ratio a_offset_prod b_prod file).output = none)) := by
  refine ⟨?_, ?_, ?_, ?_⟩
  · intro have_in have_out dry_run src_begin src_end insert_at file
    constructor
    · unfold trace_insert_range_main
      repeat'
        first
        | exact fun h => rfl
        | exact fun h => Nat.noConfusion h
        | apply ite_exit_none
    · intro hd
      subst hd
      unfold trace_insert_range_main
      rw [if_pos rfl]
      repeat' first | rfl | apply ite_output_none
  · intro have_in have_out dry_run src_begin src_end dst_begin file
    constructor
    · unfold trace_overwrite_range_main
      repeat'
        first
        | exact fun h => rfl
        | exact fun h => Nat.noConfusion h
        | apply ite_exit_none
    · intro hd
      subst hd
      unfold trace_overwrite_range_main
      rw [if_pos rfl]
      repeat' first | rfl | apply ite_output_none
  · intro have_in have_out dry_run a_begin a_end b_begin b_end a_pos b_ratio a_prod
      b_prod file
    constructor
    · unfold trace_insert_b_at_a_main
      repeat'
        first
        | exact fun h => rfl
        | exact fun h => Nat.noConfusion h
        | apply ite_exit_none
    · intro hd
      subst hd
      unfold trace_insert_b_at_a_main
      rw [if_pos rfl]
      repeat' first | rfl | apply ite_output_none
  · intro have_in have_out dry_run first_a_begin a_len b_len iterations every a_pos
      b_ratio a_offset_prod b_prod file
    constructor
    · unfold trace_insert_all_iters_main
      repeat'
        first
        | exact fun h => rfl
        | exact fun h => Nat.noConfusion h
        | apply ite_exit_none
    · intro hd
      subst hd
      unfold trace_insert_all_iters_main
      rw [if_pos rfl]
      repeat' first | rfl | apply ite_output_none

/-- Witness for C8: concrete dry-run invocations of all four splicers
create no output. -/
theorem C8_no_output_before_validation_witness :
    (trace_insert_range_main true true true 0 1 0 []).output = none ∧
    (trace_overwrite_range_main true true true 0 1 0 []).output = none ∧
    (trace_insert_b_at_a_main true true true 0 1 1 2 0 1 0 0 []).output = none ∧
    (trace_insert_all_iters_main true true true 0 1 1 1 1 0 1 0 0 []).output = none := by
  have h := C8_no_output_before_validation
  exact ⟨(h.1 true true true 0 1 0 []).2 rfl,
    (h.2.1 true true true 0 1 0 []).2 rfl,
    (h.2.2.1 true true true 0 1 1 2 0 1 0 0 []).2 rfl,
    (h.2.2.2 true true true 0 1 1 1 1 0 1 0 0 []).2 rfl⟩
